import Mathlib

set_option linter.unusedSectionVars false
set_option linter.unusedVariables false

/-!
Shallow embedding of the colsketch dictionary construction and lookup
(package colsketch, file colsketch.go), together with theorems checking the
natural-language specification against the code.

Go machine types are modelled as follows: `Code` (uint16) is a `Nat` with an
explicit `% 65536` at every operation that can wrap in Go; `Mode` (uint16) is
a `Nat`; the generic type parameter `T` constrained by `cmp.Ordered` is a
type `α` with a `LinearOrder` instance (total order, decidable comparison),
and the Go zero value of `T` is `default` of an `Inhabited` instance.
Cluster counts and slice lengths are `Nat` (in Go they are nonnegative
`int` values).
-/

namespace Colsketch

/-- Code represents a dictionary code value (Go: `type Code uint16`).
Arithmetic on codes is written over `Nat` with explicit wrapping so that the
uint16 overflow behaviour of Go stays visible in the definitions. -/
abbrev Code := Nat

/-- IsExact returns true iff the code is an exact code, i.e. a code which
represents a single underlying value rather than a range of possible values.
This is true iff the code is an even number (Go: `c%2 == 0`). -/
def Code.IsExact (c : Nat) : Bool :=
  c % 2 == 0

/-- Mode indicates whether to build a small Dict of up to 255 values or a
larger one of up to 65535 values (Go: `type Mode uint16`). -/
abbrev Mode := Nat

/-- Byte builds a Dict with up to 255 codes ranging over [1,255]. -/
def Mode.Byte : Mode := 0

/-- Word builds a Dict with up to 65535 codes ranging over [1,65535]. -/
def Mode.Word : Mode := 1

/-- NumExactCodes returns the count of exact codes in the mode
(Go switch with default branch returning 0). -/
def Mode.NumExactCodes (m : Mode) : Nat :=
  if m = Mode.Byte then 127
  else if m = Mode.Word then 32767
  else 0

/-- MaxExactCode returns the maximum exact code in the mode. -/
def Mode.MaxExactCode (m : Mode) : Nat :=
  if m = Mode.Byte then 0xfe
  else if m = Mode.Word then 0xfffe
  else 0

/-- MaxInexactCode returns the maximum inexact code in the mode. -/
def Mode.MaxInexactCode (m : Mode) : Nat :=
  if m = Mode.Byte then 0xff
  else if m = Mode.Word then 0xffff
  else 0

/-- Dict is a dictionary over an underlying ordered type. `codes` is the
sorted slice of the values assigned exact codes in the dictionary. -/
structure Dict (α : Type) where
  mode : Mode
  codes : List α
deriving DecidableEq

/-- cluster holds information about a cluster of identical values in a
sample (Go: `type cluster[T cmp.Ordered] struct { value T; count int }`). -/
structure Cluster (α : Type) where
  value : α
  count : Nat
deriving DecidableEq

variable {α : Type}

/-- Inner loop of `assignCodesWithStep` (Go loop over `lastIdx`): starting
from the remaining cluster list, accumulate cluster counts into
`clusterCountSum` while it is below `codestep` and clusters remain, tracking
in `best` the cluster with the maximum count seen so far in this sequence
(Go `idxWithMaxVal`; only a strictly greater count replaces it). The result
is the emitted representative value together with the clusters the NEXT
sequence starts from: when the loop stops because the sum reached `codestep`
at position `lastIdx`, Go sets `firstIdx = lastIdx + 1`, so the cluster at
`lastIdx` (here the head of the remaining list) is dropped. -/
def segLoop (codestep : Nat) : List (Cluster α) → Cluster α → Nat → α × List (Cluster α)
  | c :: rest, best, sum =>
    if sum < codestep then
      segLoop codestep rest (if best.count < c.count then c else best) (sum + c.count)
    else
      (best.value, rest)
  | [], best, _ => (best.value, [])

theorem segLoop_snd_length_le (codestep : Nat) :
    ∀ (l : List (Cluster α)) (best : Cluster α) (sum : Nat),
      (segLoop codestep l best sum).2.length ≤ l.length
  | [], _, _ => Nat.le_refl _
  | c :: rest, best, sum => by
    rw [segLoop]
    by_cases h : sum < codestep
    · simp only [if_pos h]
      exact Nat.le_trans (segLoop_snd_length_le codestep rest _ _) (Nat.le_succ _)
    · simp only [if_neg h]
      exact Nat.le_succ _

theorem segLoop_snd_length_lt (codestep : Nat) (c : Cluster α)
    (rest : List (Cluster α)) (best : Cluster α) (sum : Nat) :
    (segLoop codestep (c :: rest) best sum).2.length < (c :: rest).length := by
  rw [segLoop]
  by_cases h : sum < codestep
  · simp only [if_pos h]
    exact Nat.lt_succ_of_le (segLoop_snd_length_le codestep rest _ _)
  · simp only [if_neg h]
    exact Nat.lt_succ_of_le (Nat.le_refl _)

/-- assignCodesWithStep selects representative codes from a list of clusters
based on a given step size (Go `assignCodesWithStep`): each outer iteration
starts a sequence at the first unconsumed cluster (`firstIdx`), with
`idxWithMaxVal = firstIdx` and `clusterCountSum = 0`, runs the inner loop
(`segLoop`), appends the emitted value and continues from the clusters the
inner loop left for the next sequence. -/
def assignCodesWithStep (codestep : Nat) : List (Cluster α) → List α
  | [] => []
  | c :: rest =>
    (segLoop codestep (c :: rest) c 0).1 ::
      assignCodesWithStep codestep (segLoop codestep (c :: rest) c 0).2
termination_by l => l.length
decreasing_by exact segLoop_snd_length_lt _ _ _ _ _

/-- Bias-correction loop of `assignCodesWithMinimalStep` (Go
`for i := 0; i < 8; i++`), with the remaining iteration count as `fuel`
(initially 8): stop when the code count hits `ncodes`; truncate and stop
when it exceeds `ncodes`; otherwise shrink `codestep` by the fixed-point
ratio `bias = (len(codes)*10000)/ncodes`, re-run the assignment, and accept
the new result only while it still undershoots `ncodes`. -/
def minStepLoop (ncodes : Nat) (clu : List (Cluster α)) :
    Nat → Nat → List α → List α
  | 0, _, codes => codes
  | fuel + 1, codestep, codes =>
    if codes.length = ncodes then codes
    else if codes.length > ncodes then codes.take ncodes
    else
      if (assignCodesWithStep ((codestep * ((codes.length * 10000) / ncodes)) / 10000) clu).length
          < ncodes then
        minStepLoop ncodes clu fuel ((codestep * ((codes.length * 10000) / ncodes)) / 10000)
          (assignCodesWithStep ((codestep * ((codes.length * 10000) / ncodes)) / 10000) clu)
      else codes

/-- Len returns the number of codes in the dictionary (Go `Dict.Len`). -/
def Dict.Len (d : Dict α) : Nat :=
  d.codes.length

/-- assignCodesWithMinimalStep divides a list of clusters into segments and
assigns a code to represent each segment (Go `assignCodesWithMinimalStep`).
The initial `codestep` is `sampleSize / ncodes`; in Go this integer division
is a fatal run-time fault (division by zero) when `ncodes = 0`, modelled
here by returning `none`. Otherwise the initial assignment is refined by the
bias-correction loop for up to 8 iterations. -/
def assignCodesWithMinimalStep (sampleSize ncodes : Nat)
    (clu : List (Cluster α)) : Option (List α) :=
  if ncodes = 0 then none
  else
    some (minStepLoop ncodes clu 8 (sampleSize / ncodes)
      (assignCodesWithStep (sampleSize / ncodes) clu))

variable [LinearOrder α]

/-- Embeds the call `sort.Slice(sortedSample, ...cmp.Less...)` from NewDict:
an unspecified comparison sort by the total order of the value type. Over a
total order the ascending reordering of a list of plain values is unique, so
any correct comparison sort is embedded by `List.insertionSort`. -/
def sortSample (l : List α) : List α :=
  l.insertionSort (· ≤ ·)

/-- Loop body of `clusters`: walks the remaining sorted sample carrying the
current run value `curr` and its occurrence count `count`; a value equal to
`curr` extends the run, a different value closes the run and starts a new
one; at the end the final run is appended. -/
def clustersLoop : List α → α → Nat → List (Cluster α)
  | [], curr, count => [⟨curr, count⟩]
  | s :: rest, curr, count =>
    if s = curr then clustersLoop rest curr (count + 1)
    else ⟨curr, count⟩ :: clustersLoop rest s 1

/-- clusters performs frequency analysis on a sorted sample (Go `clusters`):
the run scan starts with `curr = sortedSample[0]` and `count = 0` and then
visits every element of the sample, including the first one again. -/
def clusters : List α → List (Cluster α)
  | [] => []
  | x :: xs => clustersLoop (x :: xs) x 0

variable [Inhabited α]

/-- NewDict builds a dictionary with a given Mode over a provided sample
(Go `NewDict`). An empty sample yields the single default value as the only
code. Otherwise the sample is copied, sorted and clustered; with at most
`NumExactCodes` clusters each cluster value becomes a code directly, else
the adaptive assignment runs. The Go division-by-zero fault inside
`assignCodesWithMinimalStep` surfaces as `none`. -/
def NewDict (mode : Mode) (sample : List α) : Option (Dict α) :=
  if sample.length = 0 then some ⟨mode, [default]⟩
  else
    let sortedSample := sortSample sample
    let clu := clusters sortedSample
    let ncodes := mode.NumExactCodes
    if clu.length ≤ ncodes then some ⟨mode, clu.map Cluster.value⟩
    else (assignCodesWithMinimalStep sample.length ncodes clu).map (⟨mode, ·⟩)

/-- Embeds `sort.Search(n, f)` from the Go standard library, exactly its
binary search loop: starting from `i = 0` and `j = n`, while `i < j` probe
the midpoint `h = (i+j)/2` and set `i = h+1` when `f h` is false, else
`j = h`; the result is the final `i`. -/
def sortSearchLoop (f : Nat → Bool) (i j : Nat) : Nat :=
  if h : i < j then
    if f ((i + j) / 2) then sortSearchLoop f i ((i + j) / 2)
    else sortSearchLoop f ((i + j) / 2 + 1) j
  else i
termination_by j - i
decreasing_by
  all_goals omega

/-- Encode looks up the code for a value of the underlying value type
(Go `Dict.Encode`): binary search for the first index whose stored value
compares greater or equal to the query, map index `idx` to code
`2*(idx+1)` (uint16 arithmetic, hence the `% 65536`), and decrement into
the odd code when the index is out of range or the stored value differs
from the query (uint16 decrement, hence `(code + 65535) % 65536`). The
out-of-range default handed to `getD` is never read inside the search
bounds. -/
def Dict.Encode (d : Dict α) (value : α) : Nat :=
  let idx := sortSearchLoop (fun i => decide (value ≤ d.codes.getD i value)) 0 d.codes.length
  let code := 2 * (idx + 1) % 65536
  if d.codes.length ≤ idx ∨ d.codes.getD idx value ≠ value then (code + 65535) % 65536
  else code

/-! ## Properties of the sorted copy of the sample -/

theorem sortSample_sorted (l : List α) : List.Sorted (· ≤ ·) (sortSample l) :=
  List.sorted_insertionSort _ l

theorem sortSample_perm (l : List α) : (sortSample l).Perm l :=
  List.perm_insertionSort _ l

theorem mem_sortSample {l : List α} {a : α} : a ∈ sortSample l ↔ a ∈ l :=
  (sortSample_perm l).mem_iff

theorem sortSample_ne_nil {l : List α} (h : l ≠ []) : sortSample l ≠ [] := by
  intro hs
  apply h
  have hlen := (sortSample_perm l).length_eq
  rw [hs] at hlen
  exact List.length_eq_zero.mp hlen.symm

/-! ## Properties of frequency clustering -/

theorem clustersLoop_ne_nil :
    ∀ (l : List α) (curr : α) (count : Nat), clustersLoop l curr count ≠ []
  | [], _, _ => by simp [clustersLoop]
  | s :: rest, curr, count => by
    rw [clustersLoop]
    by_cases h : s = curr
    · rw [if_pos h]
      exact clustersLoop_ne_nil rest curr (count + 1)
    · rw [if_neg h]
      simp

theorem clusters_ne_nil {l : List α} (h : l ≠ []) : clusters l ≠ [] := by
  cases l with
  | nil => exact absurd rfl h
  | cons x xs => exact clustersLoop_ne_nil (x :: xs) x 0

theorem mem_clustersLoop_value :
    ∀ (l : List α) (curr : α) (count : Nat) (v : α),
      v ∈ (clustersLoop l curr count).map Cluster.value ↔ v = curr ∨ v ∈ l
  | [], curr, count, v => by simp [clustersLoop]
  | s :: rest, curr, count, v => by
    rw [clustersLoop]
    by_cases h : s = curr
    · rw [if_pos h]
      rw [mem_clustersLoop_value rest curr (count + 1) v]
      subst h
      simp [List.mem_cons]
    · rw [if_neg h]
      simp only [List.map_cons, List.mem_cons]
      rw [mem_clustersLoop_value rest s 1 v]

theorem mem_clusters_value {l : List α} {v : α} :
    v ∈ (clusters l).map Cluster.value ↔ v ∈ l := by
  cases l with
  | nil => simp [clusters]
  | cons x xs =>
    rw [clusters, mem_clustersLoop_value]
    simp only [List.mem_cons]
    tauto

theorem clustersLoop_pairwise :
    ∀ (l : List α) (curr : α) (count : Nat), List.Sorted (· ≤ ·) l →
      (∀ x ∈ l, curr ≤ x) →
      List.Pairwise (· < ·) ((clustersLoop l curr count).map Cluster.value)
  | [], curr, count, _, _ => by simp [clustersLoop]
  | s :: rest, curr, count, hl, hcurr => by
    rw [List.sorted_cons] at hl
    rw [clustersLoop]
    by_cases h : s = curr
    · rw [if_pos h]
      refine clustersLoop_pairwise rest curr (count + 1) hl.2 ?_
      intro x hx
      exact h ▸ hl.1 x hx
    · rw [if_neg h]
      simp only [List.map_cons]
      refine List.pairwise_cons.mpr ⟨?_, clustersLoop_pairwise rest s 1 hl.2 hl.1⟩
      intro v hv
      have hcs : curr < s := lt_of_le_of_ne (hcurr s (List.mem_cons_self s rest)) (Ne.symm h)
      rcases (mem_clustersLoop_value rest s 1 v).mp hv with rfl | hvr
      · exact hcs
      · exact lt_of_lt_of_le hcs (hl.1 v hvr)

theorem clusters_pairwise {l : List α} (hl : List.Sorted (· ≤ ·) l) :
    List.Pairwise (· < ·) ((clusters l).map Cluster.value) := by
  cases l with
  | nil => simp [clusters]
  | cons x xs =>
    rw [List.sorted_cons] at hl
    refine clustersLoop_pairwise (x :: xs) x 0 (List.sorted_cons.mpr hl) ?_
    intro y hy
    rcases List.mem_cons.mp hy with rfl | hyr
    · exact le_refl y
    · exact hl.1 y hyr

theorem clusters_length_toFinset {l : List α} (hl : List.Sorted (· ≤ ·) l) :
    (clusters l).length = l.toFinset.card := by
  have hnd : ((clusters l).map Cluster.value).Nodup :=
    (clusters_pairwise hl).imp ne_of_lt
  have hfs : ((clusters l).map Cluster.value).toFinset = l.toFinset := by
    ext v
    simp only [List.mem_toFinset]
    exact mem_clusters_value
  calc (clusters l).length
      = ((clusters l).map Cluster.value).length := (List.length_map _ _).symm
    _ = ((clusters l).map Cluster.value).toFinset.card :=
        (List.toFinset_card_of_nodup hnd).symm
    _ = l.toFinset.card := by rw [hfs]

/-! ## Properties of segment assignment -/

theorem segLoop_fst_mem (codestep : Nat) :
    ∀ (l : List (Cluster α)) (best : Cluster α) (sum : Nat),
      (segLoop codestep l best sum).1 = best.value ∨
        (segLoop codestep l best sum).1 ∈ l.map Cluster.value
  | [], best, sum => by rw [segLoop]; exact Or.inl rfl
  | c :: rest, best, sum => by
    rw [segLoop]
    by_cases h : sum < codestep
    · rw [if_pos h]
      rcases segLoop_fst_mem codestep rest (if best.count < c.count then c else best)
          (sum + c.count) with heq | hmem
      · rw [heq]
        by_cases hc : best.count < c.count
        · rw [if_pos hc]
          exact Or.inr (by simp)
        · rw [if_neg hc]
          exact Or.inl rfl
      · exact Or.inr (List.mem_cons_of_mem _ hmem)
    · rw [if_neg h]
      exact Or.inl rfl

theorem segLoop_snd_suffix (codestep : Nat) :
    ∀ (l : List (Cluster α)) (best : Cluster α) (sum : Nat),
      (segLoop codestep l best sum).2.IsSuffix l
  | [], best, sum => by rw [segLoop]
  | c :: rest, best, sum => by
    rw [segLoop]
    by_cases h : sum < codestep
    · rw [if_pos h]
      exact (segLoop_snd_suffix codestep rest _ _).trans (List.suffix_cons c rest)
    · rw [if_neg h]
      exact List.suffix_cons c rest

theorem segLoop_lt (codestep : Nat) :
    ∀ (l : List (Cluster α)) (best : Cluster α) (sum : Nat),
      (∀ c ∈ l, best.value ≤ c.value) →
      List.Pairwise (· < ·) (l.map Cluster.value) →
      ∀ c ∈ (segLoop codestep l best sum).2, (segLoop codestep l best sum).1 < c.value
  | [], best, sum, _, _ => by rw [segLoop]; intro c hc; exact absurd hc (List.not_mem_nil c)
  | c :: rest, best, sum, hbest, hpw => by
    rw [segLoop]
    by_cases h : sum < codestep
    · rw [if_pos h]
      simp only [List.map_cons, List.pairwise_cons] at hpw
      refine segLoop_lt codestep rest _ (sum + c.count) ?_ hpw.2
      intro c' hc'
      by_cases hc : best.count < c.count
      · rw [if_pos hc]
        exact le_of_lt (hpw.1 c'.value (List.mem_map_of_mem Cluster.value hc'))
      · rw [if_neg hc]
        exact hbest c' (List.mem_cons_of_mem _ hc')
    · rw [if_neg h]
      intro c' hc'
      simp only [List.map_cons, List.pairwise_cons] at hpw
      exact lt_of_le_of_lt (hbest c (List.mem_cons_self c rest))
        (hpw.1 c'.value (List.mem_map_of_mem Cluster.value hc'))

theorem assignCodesWithStep_subset (codestep : Nat) :
    ∀ (n : Nat) (l : List (Cluster α)), l.length ≤ n →
      ∀ x ∈ assignCodesWithStep codestep l, x ∈ l.map Cluster.value := by
  intro n
  induction n with
  | zero =>
    intro l hl x hx
    rw [List.length_eq_zero.mp (Nat.le_zero.mp hl)] at hx
    rw [assignCodesWithStep] at hx
    exact absurd hx (List.not_mem_nil x)
  | succ n ih =>
    intro l hl x hx
    cases l with
    | nil =>
      rw [assignCodesWithStep] at hx
      exact absurd hx (List.not_mem_nil x)
    | cons c rest =>
      rw [assignCodesWithStep] at hx
      rcases List.mem_cons.mp hx with rfl | hx2
      · rcases segLoop_fst_mem codestep (c :: rest) c 0 with heq | hmem
        · rw [heq]
          simp
        · exact hmem
      · have hlen : (segLoop codestep (c :: rest) c 0).2.length ≤ n := by
          have := segLoop_snd_length_lt codestep c rest c 0
          simp only [List.length_cons] at this hl
          omega
        have hx3 := ih _ hlen x hx2
        rcases List.mem_map.mp hx3 with ⟨c', hc', rfl⟩
        exact List.mem_map_of_mem Cluster.value
          ((segLoop_snd_suffix codestep (c :: rest) c 0).subset hc')

theorem assignCodesWithStep_pairwise (codestep : Nat) :
    ∀ (n : Nat) (l : List (Cluster α)), l.length ≤ n →
      List.Pairwise (· < ·) (l.map Cluster.value) →
      List.Pairwise (· < ·) (assignCodesWithStep codestep l) := by
  intro n
  induction n with
  | zero =>
    intro l hl _
    rw [List.length_eq_zero.mp (Nat.le_zero.mp hl), assignCodesWithStep]
    exact List.Pairwise.nil
  | succ n ih =>
    intro l hl hpw
    cases l with
    | nil => rw [assignCodesWithStep]; exact List.Pairwise.nil
    | cons c rest =>
      rw [assignCodesWithStep]
      have hlen : (segLoop codestep (c :: rest) c 0).2.length ≤ n := by
        have := segLoop_snd_length_lt codestep c rest c 0
        simp only [List.length_cons] at this hl
        omega
      have hpw2 : List.Pairwise (· < ·) ((segLoop codestep (c :: rest) c 0).2.map Cluster.value) :=
        hpw.sublist (((segLoop_snd_suffix codestep (c :: rest) c 0).sublist).map Cluster.value)
      refine List.pairwise_cons.mpr ⟨?_, ih _ hlen hpw2⟩
      intro x hx
      rcases List.mem_map.mp (assignCodesWithStep_subset codestep _ _ hlen x hx)
        with ⟨c', hc', rfl⟩
      refine segLoop_lt codestep (c :: rest) c 0 ?_ hpw c' hc'
      intro c'' hc''
      rcases List.mem_cons.mp hc'' with rfl | hc''2
      · exact le_refl _
      · simp only [List.map_cons, List.pairwise_cons] at hpw
        exact le_of_lt (hpw.1 c''.value (List.mem_map_of_mem Cluster.value hc''2))

/-! ## Properties of the bias-correction loop -/

theorem minStepLoop_subset (ncodes : Nat) (clu : List (Cluster α)) :
    ∀ (fuel codestep : Nat) (codes : List α),
      (∀ x ∈ codes, x ∈ clu.map Cluster.value) →
      ∀ x ∈ minStepLoop ncodes clu fuel codestep codes, x ∈ clu.map Cluster.value
  | 0, _, codes, hc => hc
  | fuel + 1, codestep, codes, hc => by
    rw [minStepLoop]
    by_cases h1 : codes.length = ncodes
    · rw [if_pos h1]; exact hc
    · rw [if_neg h1]
      by_cases h2 : codes.length > ncodes
      · rw [if_pos h2]
        intro x hx
        exact hc x (List.take_subset ncodes codes hx)
      · rw [if_neg h2]
        by_cases h3 :
            (assignCodesWithStep ((codestep * ((codes.length * 10000) / ncodes)) / 10000)
              clu).length < ncodes
        · rw [if_pos h3]
          exact minStepLoop_subset ncodes clu fuel _ _
            (assignCodesWithStep_subset _ clu.length clu (le_refl _))
        · rw [if_neg h3]; exact hc

theorem minStepLoop_pairwise (ncodes : Nat) (clu : List (Cluster α))
    (hclu : List.Pairwise (· < ·) (clu.map Cluster.value)) :
    ∀ (fuel codestep : Nat) (codes : List α),
      List.Pairwise (· < ·) codes →
      List.Pairwise (· < ·) (minStepLoop ncodes clu fuel codestep codes)
  | 0, _, codes, hc => hc
  | fuel + 1, codestep, codes, hc => by
    rw [minStepLoop]
    by_cases h1 : codes.length = ncodes
    · rw [if_pos h1]; exact hc
    · rw [if_neg h1]
      by_cases h2 : codes.length > ncodes
      · rw [if_pos h2]
        exact hc.sublist (List.take_sublist ncodes codes)
      · rw [if_neg h2]
        by_cases h3 :
            (assignCodesWithStep ((codestep * ((codes.length * 10000) / ncodes)) / 10000)
              clu).length < ncodes
        · rw [if_pos h3]
          exact minStepLoop_pairwise ncodes clu hclu fuel _ _
            (assignCodesWithStep_pairwise _ clu.length clu (le_refl _) hclu)
        · rw [if_neg h3]; exact hc

theorem minStepLoop_length_le (ncodes : Nat) (clu : List (Cluster α)) :
    ∀ (fuel codestep : Nat) (codes : List α), codes.length ≤ ncodes →
      (minStepLoop ncodes clu fuel codestep codes).length ≤ ncodes
  | 0, _, codes, hc => hc
  | fuel + 1, codestep, codes, hc => by
    rw [minStepLoop]
    by_cases h1 : codes.length = ncodes
    · rw [if_pos h1]; exact hc
    · rw [if_neg h1]
      by_cases h2 : codes.length > ncodes
      · rw [if_pos h2]
        rw [List.length_take]
        omega
      · rw [if_neg h2]
        by_cases h3 :
            (assignCodesWithStep ((codestep * ((codes.length * 10000) / ncodes)) / 10000)
              clu).length < ncodes
        · rw [if_pos h3]
          exact minStepLoop_length_le ncodes clu fuel _ _ (le_of_lt h3)
        · rw [if_neg h3]; exact hc

theorem minStepLoop_length_le_succ (ncodes : Nat) (clu : List (Cluster α))
    (fuel codestep : Nat) (codes : List α) :
    (minStepLoop ncodes clu (fuel + 1) codestep codes).length ≤ ncodes := by
  rw [minStepLoop]
  by_cases h1 : codes.length = ncodes
  · rw [if_pos h1]; exact le_of_eq h1
  · rw [if_neg h1]
    by_cases h2 : codes.length > ncodes
    · rw [if_pos h2]
      rw [List.length_take]
      omega
    · rw [if_neg h2]
      by_cases h3 :
          (assignCodesWithStep ((codestep * ((codes.length * 10000) / ncodes)) / 10000)
            clu).length < ncodes
      · rw [if_pos h3]
        exact minStepLoop_length_le ncodes clu fuel _ _ (le_of_lt h3)
      · rw [if_neg h3]; omega

/-! ## Inversion and invariants of NewDict -/

theorem numExactCodes_pos {mode : Mode}
    (hmode : mode = Mode.Byte ∨ mode = Mode.Word) : 0 < mode.NumExactCodes := by
  rcases hmode with rfl | rfl <;> decide

theorem numExactCodes_le (mode : Mode) : mode.NumExactCodes ≤ 32767 := by
  rw [Mode.NumExactCodes]
  split
  · omega
  · split <;> omega

theorem newDict_inv {mode : Mode} {sample : List α} {d : Dict α}
    (hd : NewDict mode sample = some d) :
    (sample = [] ∧ d.codes = [default]) ∨
    (sample ≠ [] ∧
      (clusters (sortSample sample)).length ≤ mode.NumExactCodes ∧
      d.codes = (clusters (sortSample sample)).map Cluster.value) ∨
    (sample ≠ [] ∧
      ¬(clusters (sortSample sample)).length ≤ mode.NumExactCodes ∧
      mode.NumExactCodes ≠ 0 ∧
      d.codes = minStepLoop mode.NumExactCodes (clusters (sortSample sample)) 8
        (sample.length / mode.NumExactCodes)
        (assignCodesWithStep (sample.length / mode.NumExactCodes)
          (clusters (sortSample sample)))) := by
  rw [NewDict] at hd
  by_cases h0 : sample.length = 0
  · rw [if_pos h0] at hd
    refine Or.inl ⟨List.length_eq_zero.mp h0, ?_⟩
    cases Option.some_injective _ hd
    rfl
  · rw [if_neg h0] at hd
    simp only at hd
    have hne : sample ≠ [] := fun h => h0 (h ▸ rfl)
    by_cases h1 : (clusters (sortSample sample)).length ≤ mode.NumExactCodes
    · rw [if_pos h1] at hd
      refine Or.inr (Or.inl ⟨hne, h1, ?_⟩)
      cases Option.some_injective _ hd
      rfl
    · rw [if_neg h1] at hd
      refine Or.inr (Or.inr ⟨hne, h1, ?_, ?_⟩)
      · intro hz
        rw [assignCodesWithMinimalStep, if_pos hz] at hd
        exact Option.noConfusion hd
      · by_cases hz : mode.NumExactCodes = 0
        · rw [assignCodesWithMinimalStep, if_pos hz] at hd
          exact absurd hd Option.noConfusion
        · rw [assignCodesWithMinimalStep, if_neg hz] at hd
          rw [Option.map_some'] at hd
          cases Option.some_injective _ hd
          rfl

theorem newDict_pairwise {mode : Mode} {sample : List α} {d : Dict α}
    (hd : NewDict mode sample = some d) : List.Pairwise (· < ·) d.codes := by
  rcases newDict_inv hd with ⟨_, hc⟩ | ⟨_, _, hc⟩ | ⟨_, _, _, hc⟩
  · rw [hc]
    exact List.pairwise_singleton _ _
  · rw [hc]
    exact clusters_pairwise (sortSample_sorted sample)
  · rw [hc]
    have hclu := clusters_pairwise (sortSample_sorted sample)
    exact minStepLoop_pairwise _ _ hclu 8 _ _
      (assignCodesWithStep_pairwise _ _ _ (le_refl _) hclu)

theorem newDict_len_le {mode : Mode} {sample : List α} {d : Dict α}
    (hmode : mode = Mode.Byte ∨ mode = Mode.Word)
    (hd : NewDict mode sample = some d) : d.codes.length ≤ mode.NumExactCodes := by
  rcases newDict_inv hd with ⟨_, hc⟩ | ⟨_, hle, hc⟩ | ⟨_, _, _, hc⟩
  · rw [hc]
    exact numExactCodes_pos hmode
  · rw [hc, List.length_map]
    exact hle
  · rw [hc]
    exact minStepLoop_length_le_succ _ _ 7 _ _

theorem newDict_len_le_32767 {mode : Mode} {sample : List α} {d : Dict α}
    (hmode : mode = Mode.Byte ∨ mode = Mode.Word)
    (hd : NewDict mode sample = some d) : d.codes.length ≤ 32767 :=
  le_trans (newDict_len_le hmode hd) (numExactCodes_le mode)

theorem newDict_mem_sample {mode : Mode} {sample : List α} {d : Dict α}
    (hne : sample ≠ []) (hd : NewDict mode sample = some d) :
    ∀ v ∈ d.codes, v ∈ sample := by
  rcases newDict_inv hd with ⟨hnil, _⟩ | ⟨_, _, hc⟩ | ⟨_, _, _, hc⟩
  · exact absurd hnil hne
  · intro v hv
    rw [hc] at hv
    exact mem_sortSample.mp (mem_clusters_value.mp hv)
  · intro v hv
    rw [hc] at hv
    have := minStepLoop_subset _ _ 8 _ _
      (assignCodesWithStep_subset _ _ _ (le_refl _)) v hv
    exact mem_sortSample.mp (mem_clusters_value.mp this)

/-! ## Correctness of the binary search in Encode -/

theorem sortSearchLoop_spec (f : Nat → Bool)
    (hmono : ∀ k l, k ≤ l → f k = true → f l = true) :
    ∀ (N i j : Nat), j - i ≤ N →
      (∀ k, k < i → f k = false) → (∀ k, j ≤ k → f k = true) →
      (∀ k, k < sortSearchLoop f i j → f k = false) ∧
      (∀ k, sortSearchLoop f i j ≤ k → f k = true) := by
  intro N
  induction N with
  | zero =>
    intro i j hN hlow hhigh
    rw [sortSearchLoop, dif_neg (by omega : ¬ i < j)]
    exact ⟨hlow, fun k hk => hhigh k (by omega)⟩
  | succ N ih =>
    intro i j hN hlow hhigh
    rw [sortSearchLoop]
    by_cases hij : i < j
    · rw [dif_pos hij]
      by_cases hf : f ((i + j) / 2) = true
      · rw [if_pos hf]
        refine ih i ((i + j) / 2) (by omega) hlow ?_
        intro k hk
        exact hmono _ k hk hf
      · rw [if_neg hf]
        refine ih ((i + j) / 2 + 1) j (by omega) ?_ hhigh
        intro k hk
        rcases Bool.eq_false_or_eq_true (f k) with h | h
        · exact absurd (hmono k _ (by omega) h) hf
        · exact h
    · rw [dif_neg hij]
      exact ⟨hlow, fun k hk => hhigh k (by omega)⟩

/-- The index computed by the binary search inside Encode. -/
def searchIdx (codes : List α) (v : α) : Nat :=
  sortSearchLoop (fun i => decide (v ≤ codes.getD i v)) 0 codes.length

theorem Dict.Encode_eq (d : Dict α) (v : α) :
    d.Encode v =
      if d.codes.length ≤ searchIdx d.codes v ∨ d.codes.getD (searchIdx d.codes v) v ≠ v
      then (2 * (searchIdx d.codes v + 1) % 65536 + 65535) % 65536
      else 2 * (searchIdx d.codes v + 1) % 65536 := rfl

theorem searchF_mono {codes : List α} (hs : List.Sorted (· ≤ ·) codes) (v : α) :
    ∀ k l, k ≤ l →
      decide (v ≤ codes.getD k v) = true → decide (v ≤ codes.getD l v) = true := by
  intro k l hkl hk
  rw [decide_eq_true_iff] at hk ⊢
  by_cases hl : l < codes.length
  · have hk' : k < codes.length := lt_of_le_of_lt hkl hl
    rw [List.getD_eq_getElem _ _ hl]
    rw [List.getD_eq_getElem _ _ hk'] at hk
    refine le_trans hk ?_
    rcases eq_or_lt_of_le hkl with rfl | hlt
    · exact le_refl _
    · exact (List.pairwise_iff_getElem.mp hs) k l hk' hl hlt
  · rw [List.getD_eq_default _ _ (le_of_not_lt hl)]

theorem searchIdx_spec {codes : List α} {v : α} (hs : List.Sorted (· ≤ ·) codes) :
    (∀ k, k < searchIdx codes v → codes.getD k v < v) ∧
    (∀ k, searchIdx codes v ≤ k → v ≤ codes.getD k v) := by
  have hspec := sortSearchLoop_spec _ (searchF_mono hs v) codes.length 0 codes.length
    (by omega) (fun k hk => absurd hk (Nat.not_lt_zero k))
    (fun k hk => by
      rw [decide_eq_true_iff, List.getD_eq_default _ _ hk])
  constructor
  · intro k hk
    have := hspec.1 k hk
    rw [decide_eq_false_iff_not] at this
    exact lt_of_not_le this
  · intro k hk
    have := hspec.2 k hk
    rwa [decide_eq_true_iff] at this

theorem searchIdx_le {codes : List α} {v : α} (hs : List.Sorted (· ≤ ·) codes) :
    searchIdx codes v ≤ codes.length := by
  by_contra h
  have := (searchIdx_spec (v := v) hs).1 codes.length (by omega)
  rw [List.getD_eq_default _ _ (le_refl _)] at this
  exact lt_irrefl v this

theorem encode_eval {d : Dict α} (v : α)
    (hs : List.Sorted (· ≤ ·) d.codes) (hlen : d.codes.length ≤ 32767) :
    d.Encode v =
      if d.codes.length ≤ searchIdx d.codes v ∨ d.codes.getD (searchIdx d.codes v) v ≠ v
      then 2 * searchIdx d.codes v + 1
      else 2 * searchIdx d.codes v + 2 := by
  rw [Dict.Encode_eq]
  have hle : searchIdx d.codes v ≤ d.codes.length := searchIdx_le hs
  split
  · omega
  · rename_i h
    push_neg at h
    have := h.1
    omega

theorem searchIdx_getElem {codes : List α} (hpw : List.Pairwise (· < ·) codes)
    {i : Nat} (hi : i < codes.length) : searchIdx codes codes[i] = i := by
  have hs : List.Sorted (· ≤ ·) codes := hpw.imp le_of_lt
  have hspec := searchIdx_spec (v := codes[i]) hs
  rcases lt_trichotomy (searchIdx codes codes[i]) i with h | h | h
  · have h2 := hspec.2 _ (le_refl _)
    have hjlt : searchIdx codes codes[i] < codes.length := lt_trans h hi
    rw [List.getD_eq_getElem _ _ hjlt] at h2
    have := (List.pairwise_iff_getElem.mp hpw) _ i hjlt hi h
    exact absurd h2 (not_le_of_lt this)
  · exact h
  · have h1 := hspec.1 i h
    rw [List.getD_eq_getElem _ _ hi] at h1
    exact absurd h1 (lt_irrefl _)

theorem encode_getElem {d : Dict α} (hpw : List.Pairwise (· < ·) d.codes)
    (hlen : d.codes.length ≤ 32767) {i : Nat} (hi : i < d.codes.length) :
    d.Encode d.codes[i] = 2 * (i + 1) := by
  have hs : List.Sorted (· ≤ ·) d.codes := hpw.imp le_of_lt
  rw [encode_eval _ hs hlen, searchIdx_getElem hpw hi]
  rw [if_neg]
  · omega
  · push_neg
    exact ⟨hi, by rw [List.getD_eq_getElem _ _ hi]⟩

theorem encode_mono_core {d : Dict α}
    (hs : List.Sorted (· ≤ ·) d.codes) (hlen : d.codes.length ≤ 32767)
    {a b : α} (hab : a ≤ b) : d.Encode a ≤ d.Encode b := by
  have sa := searchIdx_spec (v := a) hs
  have sb := searchIdx_spec (v := b) hs
  have hlea : searchIdx d.codes a ≤ d.codes.length := searchIdx_le hs
  have hleb : searchIdx d.codes b ≤ d.codes.length := searchIdx_le hs
  have hidx : searchIdx d.codes a ≤ searchIdx d.codes b := by
    by_contra h
    push_neg at h
    have hblt : searchIdx d.codes b < d.codes.length := lt_of_lt_of_le h hlea
    have h1 := sa.1 _ h
    have h2 := sb.2 _ (le_refl _)
    rw [List.getD_eq_getElem _ _ hblt] at h1 h2
    exact lt_irrefl _ (lt_of_lt_of_le h1 (le_trans hab h2))
  rw [encode_eval a hs hlen, encode_eval b hs hlen]
  rcases eq_or_lt_of_le hidx with heq | hlt
  · rw [heq]
    by_cases hmissa : d.codes.length ≤ searchIdx d.codes b ∨
        d.codes.getD (searchIdx d.codes b) a ≠ a
    · rw [if_pos hmissa]
      split <;> omega
    · rw [if_neg hmissa]
      push_neg at hmissa
      obtain ⟨hlt1, hval⟩ := hmissa
      have hblt : searchIdx d.codes b < d.codes.length := hlt1
      have h2 := sb.2 _ (le_refl (searchIdx d.codes b))
      rw [List.getD_eq_getElem _ _ hblt] at h2 hval
      have hbv : d.codes[searchIdx d.codes b] = b :=
        le_antisymm (by rw [hval]; exact hab) h2
      rw [if_neg]
      push_neg
      refine ⟨hblt, ?_⟩
      rw [List.getD_eq_getElem _ _ hblt]
      exact hbv
  · split <;> split <;> omega

theorem encode_isExact {d : Dict α} (v : α)
    (hs : List.Sorted (· ≤ ·) d.codes) (hlen : d.codes.length ≤ 32767) :
    Code.IsExact (d.Encode v) = true ↔ v ∈ d.codes := by
  rw [encode_eval v hs hlen]
  by_cases hmiss : d.codes.length ≤ searchIdx d.codes v ∨
      d.codes.getD (searchIdx d.codes v) v ≠ v
  · rw [if_pos hmiss]
    constructor
    · intro h
      simp only [Code.IsExact, beq_iff_eq] at h
      omega
    · intro hv
      exfalso
      rcases List.mem_iff_getElem.mp hv with ⟨m, hm, hmv⟩
      have hidxm : searchIdx d.codes v ≤ m := by
        by_contra hc
        push_neg at hc
        have := (searchIdx_spec hs).1 m hc
        rw [List.getD_eq_getElem _ _ hm, hmv] at this
        exact lt_irrefl v this
      have hlt : searchIdx d.codes v < d.codes.length := lt_of_le_of_lt hidxm hm
      rcases hmiss with h1 | h2
      · omega
      · apply h2
        have hge := (searchIdx_spec hs).2 _ (le_refl (searchIdx d.codes v))
        rw [List.getD_eq_getElem _ _ hlt] at hge ⊢
        refine le_antisymm ?_ hge
        rcases eq_or_lt_of_le hidxm with heq | hlt2
        · subst heq
          exact le_of_eq hmv
        · calc d.codes[searchIdx d.codes v]
              ≤ d.codes[m] := (List.pairwise_iff_getElem.mp hs) _ m hlt hm hlt2
            _ = v := hmv
  · rw [if_neg hmiss]
    push_neg at hmiss
    obtain ⟨h1, h2⟩ := hmiss
    constructor
    · intro _
      rw [List.getD_eq_getElem _ _ h1] at h2
      rw [← h2]
      exact List.getElem_mem h1
    · intro _
      simp only [Code.IsExact, beq_iff_eq]
      omega

/-! ## The claims -/

/-- C1: for every constructed dictionary (valid mode) and every pair of query
values `a ≤ b` in the total order of the value type, the code of `a` is at
most the code of `b`: Encode is monotonic. -/
theorem claim1_encode_monotone (mode : Mode) (sample : List α)
    (d : Dict α) (hmode : mode = Mode.Byte ∨ mode = Mode.Word)
    (hd : NewDict mode sample = some d) (a b : α) (hab : a ≤ b) :
    d.Encode a ≤ d.Encode b :=
  encode_mono_core ((newDict_pairwise hd).imp le_of_lt)
    (newDict_len_le_32767 hmode hd) hab

/-- C1 witness: the monotonicity theorem applied at a concrete dictionary
built from the sample [1, 3] in Byte mode and the query pair 1 ≤ 2. -/
theorem claim1_encode_monotone_witness :
    NewDict Mode.Byte [1, 3] = some ⟨Mode.Byte, ([1, 3] : List Nat)⟩ ∧
    (⟨Mode.Byte, [1, 3]⟩ : Dict Nat).Encode 1 ≤ (⟨Mode.Byte, [1, 3]⟩ : Dict Nat).Encode 2 :=
  ⟨rfl, claim1_encode_monotone Mode.Byte [1, 3] ⟨Mode.Byte, [1, 3]⟩
    (Or.inl rfl) (by rfl) 1 2 (by decide)⟩

/-- C2: for every constructed dictionary (valid mode) and every query value
`v`, the returned code is exact (even) iff `v` equals one of the
representative values stored in the dictionary. -/
theorem claim2_isExact_iff_representative (mode : Mode)
    (sample : List α) (d : Dict α) (hmode : mode = Mode.Byte ∨ mode = Mode.Word)
    (hd : NewDict mode sample = some d) (v : α) :
    Code.IsExact (d.Encode v) = true ↔ v ∈ d.codes :=
  encode_isExact v ((newDict_pairwise hd).imp le_of_lt)
    (newDict_len_le_32767 hmode hd)

/-- C2 witness: the exactness theorem applied at a concrete dictionary built
from the sample [3, 1] in Byte mode and the query value 1. -/
theorem claim2_isExact_iff_representative_witness :
    NewDict Mode.Byte [3, 1] = some ⟨Mode.Byte, ([1, 3] : List Nat)⟩ ∧
    (Code.IsExact ((⟨Mode.Byte, [1, 3]⟩ : Dict Nat).Encode 1) = true ↔
      1 ∈ (⟨Mode.Byte, [1, 3]⟩ : Dict Nat).codes) :=
  ⟨rfl, claim2_isExact_iff_representative Mode.Byte [3, 1] ⟨Mode.Byte, [1, 3]⟩
    (Or.inl rfl) (by rfl) 1⟩

/-- C3: for every valid mode and every sample (empty and over-budget samples
included), the length of the constructed dictionary is at most the exact
code budget of the mode (127 for Byte, 32767 for Word). -/
theorem claim3_len_le_budget (mode : Mode) (sample : List α)
    (d : Dict α) (hmode : mode = Mode.Byte ∨ mode = Mode.Word)
    (hd : NewDict mode sample = some d) : d.Len ≤ mode.NumExactCodes :=
  newDict_len_le hmode hd

/-- C3 witness: the budget theorem applied at a concrete dictionary built
from the sample [5, 5, 7] in Byte mode. -/
theorem claim3_len_le_budget_witness :
    NewDict Mode.Byte [5, 5, 7] = some ⟨Mode.Byte, ([5, 7] : List Nat)⟩ ∧
    (⟨Mode.Byte, [5, 7]⟩ : Dict Nat).Len ≤ Mode.Byte.NumExactCodes :=
  ⟨rfl, claim3_len_le_budget Mode.Byte [5, 5, 7] ⟨Mode.Byte, [5, 7]⟩
    (Or.inl rfl) (by rfl)⟩

/-- C4: for every valid mode and every sample, the representative value
sequence of the constructed dictionary is strictly ascending, hence free of
duplicates; this covers both the direct one-code-per-cluster path and the
adaptive assignment path, which are the only ways a dictionary is built. -/
theorem claim4_codes_strictly_ascending (mode : Mode)
    (sample : List α) (d : Dict α)
    (hmode : mode = Mode.Byte ∨ mode = Mode.Word)
    (hd : NewDict mode sample = some d) :
    List.Sorted (· < ·) d.codes ∧ d.codes.Nodup :=
  ⟨newDict_pairwise hd, (newDict_pairwise hd).imp ne_of_lt⟩

/-- C4 witness: the strict ascent theorem applied at a concrete dictionary
built from the sample [2, 9, 2, 4] in Byte mode. -/
theorem claim4_codes_strictly_ascending_witness :
    NewDict Mode.Byte [2, 9, 2, 4] = some ⟨Mode.Byte, ([2, 4, 9] : List Nat)⟩ ∧
    (List.Sorted (· < ·) (⟨Mode.Byte, [2, 4, 9]⟩ : Dict Nat).codes ∧
      (⟨Mode.Byte, [2, 4, 9]⟩ : Dict Nat).codes.Nodup) :=
  ⟨rfl, claim4_codes_strictly_ascending Mode.Byte [2, 9, 2, 4]
    ⟨Mode.Byte, [2, 4, 9]⟩ (Or.inl rfl) (by rfl)⟩

/-- C5: an unrecognized mode (neither Byte nor Word) has NumExactCodes 0,
and building over any non-empty sample with such a mode is not rejected by
any validation but runs into the division `sampleSize / ncodes` with
`ncodes = 0`, the fatal arithmetic fault modelled by `none`. -/
theorem claim5_invalid_mode_divides_by_zero (m : Mode)
    (h1 : m ≠ Mode.Byte) (h2 : m ≠ Mode.Word) :
    m.NumExactCodes = 0 ∧
    ∀ sample : List α, sample ≠ [] → NewDict m sample = none := by
  have hz : m.NumExactCodes = 0 := by
    rw [Mode.NumExactCodes, if_neg h1, if_neg h2]
  refine ⟨hz, ?_⟩
  intro sample hne
  rw [NewDict, if_neg (fun h => hne (List.length_eq_zero.mp h))]
  simp only
  rw [if_neg, assignCodesWithMinimalStep, if_pos hz, Option.map_none']
  rw [hz]
  push_neg
  have := clusters_ne_nil (sortSample_ne_nil hne)
  exact List.length_pos.mpr this

/-- C5 witness: the invalid-mode theorem applied at mode 2 and the non-empty
sample [7]. -/
theorem claim5_invalid_mode_divides_by_zero_witness :
    Mode.NumExactCodes 2 = 0 ∧ NewDict 2 [(7 : Nat)] = none :=
  ⟨(@claim5_invalid_mode_divides_by_zero Nat _ _ 2 (by decide) (by decide)).1,
    (@claim5_invalid_mode_divides_by_zero Nat _ _ 2 (by decide) (by decide)).2
      [7] (by decide)⟩

/-- Evaluation of Encode over a one-entry dictionary: values below the single
stored value code as 1, the stored value itself as 2, greater values as 3. -/
theorem encode_singleton {d : Dict α} {c0 : α} (hc : d.codes = [c0])
    (v : α) : d.Encode v = if v < c0 then 1 else if v = c0 then 2 else 3 := by
  have hs : List.Sorted (· ≤ ·) d.codes := by
    rw [hc]
    exact List.sorted_singleton _
  have hlen : d.codes.length ≤ 32767 := by
    rw [hc]
    norm_num
  have hlen1 : d.codes.length = 1 := by simp [hc]
  rw [encode_eval v hs hlen]
  have hspec := searchIdx_spec (v := v) hs
  have hle := searchIdx_le (v := v) hs
  rcases lt_trichotomy v c0 with hv | hv | hv
  · have hidx : searchIdx d.codes v = 0 := by
      by_contra h
      have h1 := hspec.1 0 (by omega)
      rw [hc, List.getD_cons_zero] at h1
      exact absurd h1 (asymm hv)
    have hcond : d.codes.length ≤ searchIdx d.codes v ∨
        d.codes.getD (searchIdx d.codes v) v ≠ v := by
      right
      rw [hidx, hc, List.getD_cons_zero]
      exact ne_of_gt hv
    rw [if_pos hcond, if_pos hv, hidx]
  · subst hv
    have hidx : searchIdx d.codes v = 0 := by
      by_contra h
      have h1 := hspec.1 0 (by omega)
      rw [hc, List.getD_cons_zero] at h1
      exact absurd h1 (lt_irrefl v)
    have hcond : ¬(d.codes.length ≤ searchIdx d.codes v ∨
        d.codes.getD (searchIdx d.codes v) v ≠ v) := by
      push_neg
      constructor
      · rw [hidx]
        omega
      · rw [hidx, hc, List.getD_cons_zero]
    rw [if_neg hcond, if_neg (lt_irrefl v), if_pos rfl, hidx]
  · have hidx : searchIdx d.codes v = 1 := by
      by_contra h
      have h0 : searchIdx d.codes v = 0 := by omega
      have h1 := hspec.2 0 (by omega)
      rw [hc, List.getD_cons_zero] at h1
      exact absurd h1 (not_le_of_lt hv)
    have hcond : d.codes.length ≤ searchIdx d.codes v ∨
        d.codes.getD (searchIdx d.codes v) v ≠ v := by
      left
      omega
    rw [if_pos hcond, if_neg (asymm hv), if_neg (ne_of_gt hv), hidx]

/-- C6: when a segment of `assignCodesWithStep` closes because its count sum
reached the codestep, the emitted representative comes from the clusters
accumulated before the stopping index `lastIdx`, and the next segment starts
at `lastIdx + 1`: the cluster at the stopping position (the head of the
remaining list) is skipped entirely. Concretely, with codestep 1 over three
singleton clusters with values 0, 1, 2, the middle value 1 is dropped at the
first segment boundary and never emitted. -/
theorem claim6_segment_boundary_skip :
    (∀ (β : Type) (codestep sum : Nat) (c best : Cluster β)
        (rest : List (Cluster β)), codestep ≤ sum →
      segLoop codestep (c :: rest) best sum = (best.value, rest)) ∧
    (1 : Nat) ∉ assignCodesWithStep 1 [⟨0, 1⟩, ⟨1, 1⟩, ⟨2, 1⟩] := by
  constructor
  · intro β codestep sum c best rest h
    rw [segLoop, if_neg (not_lt.mpr h)]
  · simp [assignCodesWithStep, segLoop]

/-- C6 witness: the boundary-skip theorem applied at codestep 1, an already
met sum 1, the stopping cluster value 5 and the accumulated best value 3. -/
theorem claim6_segment_boundary_skip_witness :
    (1 : Nat) ≤ 1 ∧
    segLoop 1 [(⟨5, 2⟩ : Cluster Nat)] ⟨3, 4⟩ 1 = (3, []) :=
  ⟨by decide, claim6_segment_boundary_skip.1 Nat 1 1 ⟨5, 2⟩ ⟨3, 4⟩ [] (by decide)⟩

/-- C7: for a valid mode and a non-empty sample whose distinct value count
fits the exact code budget, the dictionary catalogues exactly the distinct
sample values, and the value at 0-based position `i` encodes to the exact
code `2*(i+1)`, i.e. codes 2, 4, 6, ... in ascending value order. -/
theorem claim7_direct_exact_codes (mode : Mode) (sample : List α)
    (d : Dict α) (hmode : mode = Mode.Byte ∨ mode = Mode.Word)
    (hne : sample ≠ []) (hcard : sample.toFinset.card ≤ mode.NumExactCodes)
    (hd : NewDict mode sample = some d) :
    (∀ v, v ∈ d.codes ↔ v ∈ sample) ∧
    ∀ (i : Nat) (hi : i < d.codes.length), d.Encode d.codes[i] = 2 * (i + 1) := by
  have hclu : (clusters (sortSample sample)).length ≤ mode.NumExactCodes := by
    rw [clusters_length_toFinset (sortSample_sorted sample),
      List.toFinset_eq_of_perm _ _ (sortSample_perm sample)]
    exact hcard
  constructor
  · have hcodes : d.codes = (clusters (sortSample sample)).map Cluster.value := by
      rcases newDict_inv hd with ⟨hnil, _⟩ | ⟨_, _, hcod⟩ | ⟨_, hn, _, _⟩
      · exact absurd hnil hne
      · exact hcod
      · exact absurd hclu hn
    intro v
    rw [hcodes]
    exact mem_clusters_value.trans mem_sortSample
  · intro i hi
    exact encode_getElem (newDict_pairwise hd) (newDict_len_le_32767 hmode hd) hi

/-- C7 witness: the direct-path theorem applied at Byte mode and the sample
[2, 1, 2], whose 2 distinct values fit the budget of 127. -/
theorem claim7_direct_exact_codes_witness :
    ([2, 1, 2] : List Nat) ≠ [] ∧
    ([2, 1, 2] : List Nat).toFinset.card ≤ Mode.Byte.NumExactCodes ∧
    NewDict Mode.Byte [2, 1, 2] = some ⟨Mode.Byte, ([1, 2] : List Nat)⟩ ∧
    ((∀ v, v ∈ (⟨Mode.Byte, [1, 2]⟩ : Dict Nat).codes ↔ v ∈ ([2, 1, 2] : List Nat)) ∧
      ∀ (i : Nat) (hi : i < (⟨Mode.Byte, [1, 2]⟩ : Dict Nat).codes.length),
        (⟨Mode.Byte, [1, 2]⟩ : Dict Nat).Encode (⟨Mode.Byte, [1, 2]⟩ : Dict Nat).codes[i] =
          2 * (i + 1)) :=
  ⟨by decide, by decide, by rfl,
    claim7_direct_exact_codes Mode.Byte [2, 1, 2] ⟨Mode.Byte, [1, 2]⟩
      (Or.inl rfl) (by decide) (by decide) (by rfl)⟩

/-- C8: for every valid mode, building from the empty sample succeeds and
yields a one-entry dictionary whose single representative is the default
(zero) value of the type; the default value encodes to the exact code 2, any
lesser value to 1 and any greater value to 3. -/
theorem claim8_empty_sample (mode : Mode)
    (hmode : mode = Mode.Byte ∨ mode = Mode.Word) :
    ∃ d : Dict α, NewDict mode ([] : List α) = some d ∧ d.Len = 1 ∧
      d.codes = [(default : α)] ∧ d.Encode default = 2 ∧
      (∀ v : α, v < default → d.Encode v = 1) ∧
      (∀ v : α, default < v → d.Encode v = 3) := by
  refine ⟨⟨mode, [default]⟩, rfl, rfl, rfl, ?_, ?_, ?_⟩
  · rw [encode_singleton rfl default, if_neg (lt_irrefl _), if_pos rfl]
  · intro v hv
    rw [encode_singleton rfl v, if_pos hv]
  · intro v hv
    rw [encode_singleton rfl v, if_neg (asymm hv), if_neg (ne_of_gt hv)]

/-- C8 witness: the empty-sample theorem applied at Word mode over Nat. -/
theorem claim8_empty_sample_witness :
    (Mode.Word = Mode.Byte ∨ Mode.Word = Mode.Word) ∧
    ∃ d : Dict Nat, NewDict Mode.Word ([] : List Nat) = some d ∧ d.Len = 1 ∧
      d.codes = [(default : Nat)] ∧ d.Encode default = 2 ∧
      (∀ v : Nat, v < default → d.Encode v = 1) ∧
      (∀ v : Nat, default < v → d.Encode v = 3) :=
  ⟨Or.inr rfl, claim8_empty_sample Mode.Word (Or.inr rfl)⟩

/-- C10: for a valid mode and a non-empty sample, every representative value
of the constructed dictionary occurs in the sample; none is synthesized. -/
theorem claim10_representatives_from_sample (mode : Mode)
    (sample : List α) (d : Dict α)
    (hmode : mode = Mode.Byte ∨ mode = Mode.Word) (hne : sample ≠ [])
    (hd : NewDict mode sample = some d) :
    ∀ v ∈ d.codes, v ∈ sample :=
  newDict_mem_sample hne hd

/-- C10 witness: the representative-membership theorem applied at Byte mode
and the sample [4, 4, 6]. -/
theorem claim10_representatives_from_sample_witness :
    ([4, 4, 6] : List Nat) ≠ [] ∧
    NewDict Mode.Byte [4, 4, 6] = some ⟨Mode.Byte, ([4, 6] : List Nat)⟩ ∧
    ∀ v ∈ (⟨Mode.Byte, [4, 6]⟩ : Dict Nat).codes, v ∈ ([4, 4, 6] : List Nat) :=
  ⟨by decide, by rfl, claim10_representatives_from_sample Mode.Byte [4, 4, 6]
    ⟨Mode.Byte, [4, 6]⟩ (Or.inl rfl) (by decide) (by rfl)⟩

end Colsketch
